import Mathlib

/-
Verification development for the promise library: a shallow embedding of
the trace sequence utilities (spec section 4.3), the promise state
machine (spec sections 3, 4.1 and 7), the combinator library (spec
section 4.2), and the application code of src/demo.js, together with
theorems settling the specified properties.

The file holding the library itself (the promise core, the combinators
and the trace sequence utilities) is not among the visible sources; only
its unit tests (src/test.js) and its call sites (src/demo.js) are.
Definitions for those components are therefore modelled from the spec,
each marked by a doc comment beginning with: Modelled from the spec.
Definitions for src/demo.js code are translated from that source.
-/

/-- Resolution state of a promise: Pending, Fulfilled with a value, or
Failed with an error (spec section 3, data model of Promise). -/
inductive PState (V E : Type) where
  | pending : PState V E
  | fulfilled (value : V) : PState V E
  | failed (error : E) : PState V E
deriving DecidableEq

/-- Modelled from the spec: helper for the common-suffix computation of
section 4.3 (the source of the trace sequence utilities is missing from
src/; only src/test.js exercises them). Counts the longest shared
leading run of two lists under element-wise equality. -/
def matchingFrontLength [DecidableEq α] : List α → List α → Nat
  | a :: as, b :: bs => if a = b then matchingFrontLength as bs + 1 else 0
  | _, _ => 0

/-- Modelled from the spec: length of the longest suffix common to two
lists under element-wise equality, bounded by the shorter length (spec
section 4.3, replaceCommonTrailingElements step 1). -/
def commonSuffixLength [DecidableEq α] (a b : List α) : Nat :=
  matchingFrontLength a.reverse b.reverse

/-- Modelled from the spec: replaceCommonTrailingElements of section 4.3
(source missing from src/; its tests are src/test.js lines 48-72). With
k the common-suffix length: if k is zero return newSeq unchanged;
otherwise return the first length newSeq minus k elements of newSeq,
then the first element of the common suffix, then the marker. -/
def replaceCommonTrailingElements (oldSeq newSeq : List String)
    (marker : String) : List String :=
  let k := commonSuffixLength oldSeq newSeq
  if k = 0 then
    newSeq
  else
    newSeq.take (newSeq.length - k)
      ++ (newSeq.drop (newSeq.length - k)).take 1 ++ [marker]

/-- Modelled from the spec: stripEmptyLines of section 4.3 (source
missing from src/; its tests are src/test.js lines 74-81). Removes
empty-string elements from the leading and the trailing edge of the
sequence only, keeping interior empty strings. -/
def stripEmptyLines (lines : List String) : List String :=
  ((lines.dropWhile fun s => s == "").reverse.dropWhile
      fun s => s == "").reverse

/-- Modelled from the spec: the leading whitespace of a string, its
longest all-whitespace front segment (spec section 4.3,
appendIndented). -/
def leadingWhitespace (s : String) : String :=
  String.mk (s.data.takeWhile Char.isWhitespace)

/-- Modelled from the spec: appendIndented of section 4.3 (source
missing from src/; its tests are src/test.js lines 35-46). Appends the
new line after prefixing it with the leading whitespace of the last
element of the sequence, the empty string when the sequence is empty. -/
def appendIndented (lines : List String) (newLine : String) : List String :=
  lines ++ [leadingWhitespace (lines.getLastD "") ++ newLine]

theorem matchingFrontLength_le_left [DecidableEq α] :
    ∀ a b : List α, matchingFrontLength a b ≤ a.length := by
  intro a
  induction a with
  | nil => intro b; cases b <;> simp [matchingFrontLength]
  | cons x xs ih =>
    intro b
    cases b with
    | nil => simp [matchingFrontLength]
    | cons y ys =>
      by_cases h : x = y
      · simpa [matchingFrontLength, h] using ih ys
      · simp [matchingFrontLength, h]

theorem matchingFrontLength_le_right [DecidableEq α] :
    ∀ a b : List α, matchingFrontLength a b ≤ b.length := by
  intro a
  induction a with
  | nil => intro b; cases b <;> simp [matchingFrontLength]
  | cons x xs ih =>
    intro b
    cases b with
    | nil => simp [matchingFrontLength]
    | cons y ys =>
      by_cases h : x = y
      · simpa [matchingFrontLength, h] using ih ys
      · simp [matchingFrontLength, h]

theorem take_matchingFrontLength_eq [DecidableEq α] :
    ∀ a b : List α,
      a.take (matchingFrontLength a b) = b.take (matchingFrontLength a b) := by
  intro a
  induction a with
  | nil => intro b; cases b <;> simp [matchingFrontLength]
  | cons x xs ih =>
    intro b
    cases b with
    | nil => simp [matchingFrontLength]
    | cons y ys =>
      by_cases h : x = y
      · simp [matchingFrontLength, h, List.take_succ_cons, ih ys]
      · simp [matchingFrontLength, h]

theorem le_matchingFrontLength [DecidableEq α] :
    ∀ (a b : List α) (j : Nat), j ≤ a.length → j ≤ b.length →
      a.take j = b.take j → j ≤ matchingFrontLength a b := by
  intro a
  induction a with
  | nil =>
    intro b j hja _ _
    have : j = 0 := by simpa using hja
    simp [this]
  | cons x xs ih =>
    intro b j hja hjb htake
    cases b with
    | nil =>
      have : j = 0 := by simpa using hjb
      simp [this]
    | cons y ys =>
      cases j with
      | zero => exact Nat.zero_le _
      | succ j =>
        simp only [List.take_succ_cons, List.cons.injEq] at htake
        have hxy : x = y := htake.1
        have hrec := ih ys j (Nat.le_of_succ_le_succ (by simpa using hja))
          (Nat.le_of_succ_le_succ (by simpa using hjb)) htake.2
        simpa [matchingFrontLength, hxy] using Nat.succ_le_succ hrec

theorem matchingFrontLength_self [DecidableEq α] :
    ∀ a : List α, matchingFrontLength a a = a.length := by
  intro a
  induction a with
  | nil => simp [matchingFrontLength]
  | cons x xs ih => simp [matchingFrontLength, ih]

theorem reverse_take_reverse (l : List α) (k : Nat) :
    (l.reverse.take k).reverse = l.drop (l.length - k) := by
  rcases Nat.le_total k l.length with h | h
  · have h1 : (l.drop (l.length - k)).reverse = l.reverse.take k := by
      rw [List.reverse_drop]
      congr 1
      omega
    rw [← h1, List.reverse_reverse]
  · have h0 : l.length - k = 0 := by omega
    have h2 : l.reverse.take k = l.reverse := by
      apply List.take_of_length_le
      simpa using h
    rw [h0, h2, List.reverse_reverse, List.drop_zero]

theorem commonSuffixLength_le_left [DecidableEq α] (a b : List α) :
    commonSuffixLength a b ≤ a.length := by
  simpa using matchingFrontLength_le_left a.reverse b.reverse

theorem commonSuffixLength_le_right [DecidableEq α] (a b : List α) :
    commonSuffixLength a b ≤ b.length := by
  simpa using matchingFrontLength_le_right a.reverse b.reverse

theorem commonSuffixLength_drop_eq [DecidableEq α] (a b : List α) :
    a.drop (a.length - commonSuffixLength a b)
      = b.drop (b.length - commonSuffixLength a b) := by
  rw [← reverse_take_reverse a, ← reverse_take_reverse b]
  exact congrArg List.reverse (take_matchingFrontLength_eq a.reverse b.reverse)

theorem le_commonSuffixLength [DecidableEq α] (a b : List α) (j : Nat)
    (hja : j ≤ a.length) (hjb : j ≤ b.length)
    (hdrop : a.drop (a.length - j) = b.drop (b.length - j)) :
    j ≤ commonSuffixLength a b := by
  apply le_matchingFrontLength a.reverse b.reverse j (by simpa using hja)
    (by simpa using hjb)
  have ha := reverse_take_reverse a j
  have hb := reverse_take_reverse b j
  have : (a.reverse.take j).reverse = (b.reverse.take j).reverse := by
    rw [ha, hb, hdrop]
  exact List.reverse_injective this

theorem commonSuffixLength_self [DecidableEq α] (a : List α) :
    commonSuffixLength a a = a.length := by
  simpa using matchingFrontLength_self a.reverse

/-- C1: replaceCommonTrailingElements computes the longest common suffix
length k, bounded by both lengths, agreeing element-wise and maximal
among agreeing suffix lengths; when k equals zero the result is newSeq;
when k is positive it is the first length-of-newSeq minus k elements of
newSeq followed by exactly two elements, the first element of the common
suffix and the marker; and on the spec scenario the result is
the list with elements y, z, c, x. -/
theorem c1_replaceCommonTrailingElements (oldSeq newSeq : List String)
    (m : String) :
    (commonSuffixLength oldSeq newSeq ≤ oldSeq.length
      ∧ commonSuffixLength oldSeq newSeq ≤ newSeq.length
      ∧ oldSeq.drop (oldSeq.length - commonSuffixLength oldSeq newSeq)
          = newSeq.drop (newSeq.length - commonSuffixLength oldSeq newSeq))
    ∧ (∀ j, j ≤ oldSeq.length → j ≤ newSeq.length →
        oldSeq.drop (oldSeq.length - j) = newSeq.drop (newSeq.length - j) →
        j ≤ commonSuffixLength oldSeq newSeq)
    ∧ (commonSuffixLength oldSeq newSeq = 0 →
        replaceCommonTrailingElements oldSeq newSeq m = newSeq)
    ∧ (0 < commonSuffixLength oldSeq newSeq →
        replaceCommonTrailingElements oldSeq newSeq m
          = newSeq.take (newSeq.length - commonSuffixLength oldSeq newSeq)
            ++ [newSeq.getD
                  (newSeq.length - commonSuffixLength oldSeq newSeq) "", m])
    ∧ replaceCommonTrailingElements ["a", "b", "c", "d", "e"]
        ["y", "z", "c", "d", "e"] "x" = ["y", "z", "c", "x"] := by
  refine ⟨⟨commonSuffixLength_le_left oldSeq newSeq,
      commonSuffixLength_le_right oldSeq newSeq,
      commonSuffixLength_drop_eq oldSeq newSeq⟩,
    fun j hja hjb hdrop => le_commonSuffixLength oldSeq newSeq j hja hjb hdrop,
    ?_, ?_, by decide⟩
  · intro h
    simp [replaceCommonTrailingElements, h]
  · intro hk
    have hkle : commonSuffixLength oldSeq newSeq ≤ newSeq.length :=
      commonSuffixLength_le_right oldSeq newSeq
    have hlt : newSeq.length - commonSuffixLength oldSeq newSeq
        < newSeq.length := by omega
    simp only [replaceCommonTrailingElements]
    rw [if_neg (by omega)]
    have hone : (newSeq.drop
          (newSeq.length - commonSuffixLength oldSeq newSeq)).take 1
        = [newSeq.getD (newSeq.length - commonSuffixLength oldSeq newSeq) ""] := by
      rw [List.drop_eq_getElem_cons hlt, List.getD_eq_getElem newSeq "" hlt]
      rfl
    rw [hone]
    simp

/-- Witness for C1 at the spec scenario input. -/
theorem c1_replaceCommonTrailingElements_witness :
    0 < commonSuffixLength ["a", "b", "c", "d", "e"] ["y", "z", "c", "d", "e"]
    ∧ replaceCommonTrailingElements ["a", "b", "c", "d", "e"]
        ["y", "z", "c", "d", "e"] "x"
      = (["y", "z", "c", "d", "e"] : List String).take
          ((["y", "z", "c", "d", "e"] : List String).length
            - commonSuffixLength ["a", "b", "c", "d", "e"]
                ["y", "z", "c", "d", "e"])
        ++ [(["y", "z", "c", "d", "e"] : List String).getD
              ((["y", "z", "c", "d", "e"] : List String).length
                - commonSuffixLength ["a", "b", "c", "d", "e"]
                    ["y", "z", "c", "d", "e"]) "", "x"] :=
  ⟨by decide,
   (c1_replaceCommonTrailingElements ["a", "b", "c", "d", "e"]
      ["y", "z", "c", "d", "e"] "x").2.2.2.1 (by decide)⟩

/-- C6: when the two sequences share no trailing element the result is
newSeq itself, and when the sequences are equal and non-empty the result
is the two-element list holding the first element of newSeq and the
marker. -/
theorem c6_replaceCommonTrailingElements_edges (A B : List String)
    (m : String) :
    (commonSuffixLength A B = 0 → replaceCommonTrailingElements A B m = B)
    ∧ (A = B → A ≠ [] →
        replaceCommonTrailingElements A B m = [B.headD "", m]) := by
  constructor
  · intro h
    simp [replaceCommonTrailingElements, h]
  · rintro rfl hne
    have hk : commonSuffixLength A A = A.length := commonSuffixLength_self A
    have hlen : 0 < A.length := List.length_pos.mpr hne
    simp only [replaceCommonTrailingElements, hk]
    rw [if_neg (by omega)]
    rw [Nat.sub_self]
    cases A with
    | nil => exact absurd rfl hne
    | cons x xs => simp

/-- Witness for C6: a no-shared-suffix pair and an equal non-empty
pair, each through the claim theorem. -/
theorem c6_replaceCommonTrailingElements_witness :
    replaceCommonTrailingElements ["a"] ["b"] "x" = ["b"]
    ∧ replaceCommonTrailingElements ["a", "b", "c"] ["a", "b", "c"] "x"
        = [(["a", "b", "c"] : List String).headD "", "x"] :=
  ⟨(c6_replaceCommonTrailingElements_edges ["a"] ["b"] "x").1 (by decide),
   (c6_replaceCommonTrailingElements_edges ["a", "b", "c"] ["a", "b", "c"]
      "x").2 rfl (by decide)⟩

theorem head?_dropWhile_false (p : α → Bool) :
    ∀ l : List α, ∀ x, (l.dropWhile p).head? = some x → p x = false := by
  intro l
  induction l with
  | nil =>
    intro x h
    simp [List.dropWhile] at h
  | cons a as ih =>
    intro x h
    rw [List.dropWhile_cons] at h
    by_cases hpa : p a
    · rw [if_pos hpa] at h
      exact ih x h
    · rw [if_neg hpa] at h
      simp only [List.head?_cons, Option.some.injEq] at h
      rw [← h]
      exact Bool.not_eq_true _ ▸ eq_false_of_ne_true hpa

/-- C4: stripEmptyLines splits the input into an all-empty leading run,
the result (a contiguous interior slice kept in order), and an all-empty
trailing run; the result has no empty leading and no empty trailing
element; and the spec scenario evaluates as stated. -/
theorem c4_stripEmptyLines (S : List String) :
    (∃ pre post : List String, S = pre ++ stripEmptyLines S ++ post
        ∧ (∀ x ∈ pre, x = "") ∧ (∀ x ∈ post, x = ""))
    ∧ (stripEmptyLines S).head? ≠ some ""
    ∧ (stripEmptyLines S).getLast? ≠ some ""
    ∧ stripEmptyLines ["", "x", "", "y", ""] = ["x", "", "y"] := by
  have hempty : ∀ l : List String, ∀ x ∈ l.takeWhile (fun s => s == ""),
      x = "" := by
    intro l x hx
    have := List.mem_takeWhile_imp hx
    simpa [beq_iff_eq] using this
  have hYdecomp : S.dropWhile (fun s => s == "")
      = stripEmptyLines S
        ++ ((S.dropWhile fun s => s == "").reverse.takeWhile
            fun s => s == "").reverse := by
    conv_lhs => rw [← List.reverse_reverse (S.dropWhile fun s => s == "")]
    conv_lhs => rw [← List.takeWhile_append_dropWhile
      (p := fun s => s == "")
      (l := (S.dropWhile fun s => s == "").reverse)]
    rw [List.reverse_append]
    rfl
  refine ⟨?_, ?_, ?_, by decide⟩
  · refine ⟨S.takeWhile (fun s => s == ""),
      ((S.dropWhile fun s => s == "").reverse.takeWhile
          fun s => s == "").reverse, ?_, hempty S, ?_⟩
    · conv_lhs => rw [← List.takeWhile_append_dropWhile
        (p := fun s => s == "") (l := S)]
      conv_lhs => rw [hYdecomp]
      rw [List.append_assoc]
    · intro x hx
      exact hempty _ x (List.mem_reverse.mp hx)
  · intro hcontra
    rcases hres : stripEmptyLines S with _ | ⟨r, rs⟩
    · rw [hres] at hcontra
      simp at hcontra
    · rw [hres] at hcontra
      simp only [List.head?_cons, Option.some.injEq] at hcontra
      have hY : (S.dropWhile fun s => s == "").head? = some r := by
        rw [hYdecomp, hres]
        rfl
      have := head?_dropWhile_false (fun s => s == "") S r hY
      rw [← hcontra] at this
      simp at this
  · intro hcontra
    have hlast : (stripEmptyLines S).getLast?
        = ((S.dropWhile fun s => s == "").reverse.dropWhile
            fun s => s == "").head? := by
      unfold stripEmptyLines
      exact List.getLast?_reverse _
    rw [hlast] at hcontra
    have := head?_dropWhile_false (fun s => s == "")
      (S.dropWhile fun s => s == "").reverse "" hcontra
    simp at this

theorem takeWhile_append_all (p : α → Bool) :
    ∀ l₁ l₂ : List α, (∀ x ∈ l₁, p x) →
      (l₁ ++ l₂).takeWhile p = l₁ ++ l₂.takeWhile p := by
  intro l₁
  induction l₁ with
  | nil => intro l₂ _; simp
  | cons a as ih =>
    intro l₂ hall
    have hpa : p a = true := hall a (List.mem_cons_self a as)
    simp only [List.cons_append, List.takeWhile_cons, hpa, if_true]
    rw [ih l₂ fun x hx => hall x (List.mem_cons_of_mem a hx)]

theorem string_ext_of_data {s t : String} (h : s.data = t.data) : s = t := by
  cases s
  cases t
  exact congrArg String.mk h

theorem leadingWhitespace_append_eq (last v : String) :
    leadingWhitespace (leadingWhitespace last ++ v)
      = leadingWhitespace last ++ leadingWhitespace v := by
  apply string_ext_of_data
  rw [String.data_append]
  show ((last.data.takeWhile Char.isWhitespace) ++ v.data).takeWhile
      Char.isWhitespace
    = (last.data.takeWhile Char.isWhitespace) ++ v.data.takeWhile
        Char.isWhitespace
  exact takeWhile_append_all Char.isWhitespace _ v.data
    fun c hc => List.mem_takeWhile_imp hc

/-- C5 counterexample: the claim asserts the appended element has the
same leading-whitespace run as the last element of the input sequence,
but when the new line itself starts with whitespace the appended element
keeps that extra whitespace too: appending the two-character line
consisting of one space and the letter b to the singleton sequence
containing a yields an element whose leading whitespace is one space
while the last element of the input has none. -/
theorem c5_appendIndented_counterexample :
    appendIndented ["a"] " b" = ["a", " b"]
    ∧ leadingWhitespace " b" ≠ leadingWhitespace "a" := by
  constructor
  · decide
  · decide

/-- C5 (amended): appendIndented has length one more than its input,
keeps the input as its front, appends the new line exactly when the
input is empty, and otherwise appends the new line prefixed with the
leading whitespace of the last input element; the appended element's
leading-whitespace run equals the last element's leading whitespace
followed by the leading whitespace of the new line itself (so it
equals the last element's leading whitespace whenever the new line has
none of its own). -/
theorem c5_appendIndented (S : List String) (v : String) :
    (appendIndented S v).length = S.length + 1
    ∧ (appendIndented S v).take S.length = S
    ∧ (S = [] → appendIndented S v = [v])
    ∧ (∀ last, S.getLast? = some last →
        (appendIndented S v).getLast? = some (leadingWhitespace last ++ v)
        ∧ leadingWhitespace (leadingWhitespace last ++ v)
            = leadingWhitespace last ++ leadingWhitespace v) := by
  refine ⟨by simp [appendIndented], ?_, ?_, ?_⟩
  · show (S ++ [leadingWhitespace (S.getLastD "") ++ v]).take S.length = S
    exact List.take_left S _
  · intro hS
    subst hS
    show [leadingWhitespace "" ++ v] = [v]
    rfl
  · intro last hlast
    constructor
    · show (S ++ [leadingWhitespace (S.getLastD "") ++ v]).getLast?
        = some (leadingWhitespace last ++ v)
      rw [List.getLast?_concat]
      have : S.getLastD "" = last := by
        rw [List.getLastD_eq_getLast?, hlast]
        rfl
      rw [this]
    · exact leadingWhitespace_append_eq last v

/-- Witness for C5 at a concrete indented input. -/
theorem c5_appendIndented_witness :
    (["  a"] : List String).getLast? = some "  a"
    ∧ (appendIndented ["  a"] "b").getLast?
        = some (leadingWhitespace "  a" ++ "b")
    ∧ leadingWhitespace (leadingWhitespace "  a" ++ "b")
        = leadingWhitespace "  a" ++ leadingWhitespace "b" :=
  ⟨by decide,
   ((c5_appendIndented ["  a"] "b").2.2.2 "  a" (by decide)).1,
   ((c5_appendIndented ["  a"] "b").2.2.2 "  a" (by decide)).2⟩

/-- Modelled from the spec: the error signalling a resolution attempt on
a promise that is no longer Pending (spec section 7,
AlreadyResolvedError). -/
inductive ResolveError where
  | alreadyResolved : ResolveError
deriving DecidableEq

/-- Modelled from the spec: fulfill of section 4.1 acting on the promise
state (source of the promise core missing from src/). A Pending promise
transitions to Fulfilled with the value; a promise already in a terminal
state is left unchanged and AlreadyResolvedError is raised, returned in
the second component so the error surfaces to the caller of the
resolution attempt. -/
def tryFulfill (p : PState V E) (v : V) : PState V E × Option ResolveError :=
  match p with
  | .pending => (.fulfilled v, none)
  | _ => (p, some .alreadyResolved)

/-- Modelled from the spec: fail of section 4.1 acting on the promise
state, symmetric to fulfill: Pending transitions to Failed with the
error; any terminal state is left unchanged and AlreadyResolvedError is
raised to the caller. -/
def tryFail (p : PState V E) (e : E) : PState V E × Option ResolveError :=
  match p with
  | .pending => (.failed e, none)
  | _ => (p, some .alreadyResolved)

/-- C2: a first fulfill or fail call moves the promise out of Pending,
and every later fulfill or fail call, in all four combinations, leaves
the state together with its value or error unchanged and raises
AlreadyResolvedError to the caller of that second resolution attempt. -/
theorem c2_exactly_once_resolution (V E : Type) (v₁ v₂ : V) (e₁ e₂ : E) :
    (tryFulfill (tryFulfill (.pending : PState V E) v₁).1 v₂
        = ((tryFulfill (.pending : PState V E) v₁).1,
            some .alreadyResolved))
    ∧ (tryFail (tryFulfill (.pending : PState V E) v₁).1 e₂
        = ((tryFulfill (.pending : PState V E) v₁).1,
            some .alreadyResolved))
    ∧ (tryFulfill (tryFail (.pending : PState V E) e₁).1 v₂
        = ((tryFail (.pending : PState V E) e₁).1,
            some .alreadyResolved))
    ∧ (tryFail (tryFail (.pending : PState V E) e₁).1 e₂
        = ((tryFail (.pending : PState V E) e₁).1,
            some .alreadyResolved))
    ∧ (tryFulfill (.pending : PState V E) v₁).1 = .fulfilled v₁
    ∧ (tryFail (.pending : PState V E) e₁).1 = .failed e₁ :=
  ⟨rfl, rfl, rfl, rfl, rfl, rfl⟩

/-- Modelled from the spec: body of the fulfilment callback registered
by then and thenApply (spec sections 4.2 and 4.3): the supplied function
runs inside a try block, so a synchronous throw (the error branch of its
Except result) is caught and becomes a Failed resolution of the promise
the combinator produced. The outer Except layer is the channel of
exceptions escaping the drain loop to the caller; this body never uses
it. -/
def thenCallbackRun (f : V → Except E W) (v : V) : Except E (PState W E) :=
  match f v with
  | .ok w => .ok (.fulfilled w)
  | .error e => .ok (.failed e)

/-- Modelled from the spec: body of the thenApply fulfilment callback;
thenApply spreads the fulfilled tuple across the function parameters,
the tuple being the argument value here, and otherwise behaves as
then. -/
def thenApplyCallbackRun (f : V → Except E W) (args : V) :
    Except E (PState W E) :=
  match f args with
  | .ok w => .ok (.fulfilled w)
  | .error e => .ok (.failed e)

/-- Modelled from the spec: body of the lazyThen fulfilment callback
(spec section 4.2): the mapper returns a promise whose eventual state
the produced promise adopts (one level of flattening); a synchronous
throw inside the mapper is caught and becomes a Failed resolution. -/
def lazyThenCallbackRun (f : V → Except E (PState W E)) (v : V) :
    Except E (PState W E) :=
  match f v with
  | .ok inner => .ok inner
  | .error e => .ok (.failed e)

/-- Modelled from the spec: defer of section 4.2: the scheduler runs the
thunk; the produced promise resolves to the thunk result, and a
synchronous throw inside the thunk is caught and becomes a Failed
resolution. -/
def deferRun (thunk : Unit → Except E V) : Except E (PState V E) :=
  match thunk () with
  | .ok v => .ok (.fulfilled v)
  | .error e => .ok (.failed e)

/-- Modelled from the spec: deferLazy of section 4.2: as defer but the
thunk itself returns a promise whose eventual state the outer promise
adopts; a synchronous throw inside the thunk is caught and becomes a
Failed resolution. -/
def deferLazyRun (thunk : Unit → Except E (PState V E)) :
    Except E (PState V E) :=
  match thunk () with
  | .ok inner => .ok inner
  | .error e => .ok (.failed e)

/-- C7: for each combinator-supplied function made to throw, the thrown
error becomes a Failed resolution of the promise the combinator
produced, delivered through the ok branch of the escape channel, so it
never propagates as a raised exception to the combinator caller or out
of the drain loop. -/
theorem c7_thrown_errors_become_failures (V W E : Type)
    (f fa : V → Except E W) (g : V → Except E (PState W E))
    (thunk : Unit → Except E V) (lthunk : Unit → Except E (PState V E))
    (v : V) (e : E)
    (hf : f v = .error e) (hfa : fa v = .error e) (hg : g v = .error e)
    (ht : thunk () = .error e) (hl : lthunk () = .error e) :
    thenCallbackRun f v = .ok (.failed e)
    ∧ thenApplyCallbackRun fa v = .ok (.failed e)
    ∧ lazyThenCallbackRun g v = .ok (.failed e)
    ∧ deferRun thunk = .ok (.failed e)
    ∧ deferLazyRun lthunk = .ok (.failed e) := by
  refine ⟨?_, ?_, ?_, ?_, ?_⟩
  · rw [thenCallbackRun, hf]
  · rw [thenApplyCallbackRun, hfa]
  · rw [lazyThenCallbackRun, hg]
  · rw [deferRun, ht]
  · rw [deferLazyRun, hl]

/-- Witness for C7 with concretely throwing functions. -/
theorem c7_thrown_errors_become_failures_witness :
    thenCallbackRun (fun _ : Nat => (.error "boom" : Except String Nat)) 0
        = .ok (.failed "boom")
    ∧ thenApplyCallbackRun (fun _ : Nat => (.error "boom" : Except String Nat))
        0 = .ok (.failed "boom")
    ∧ lazyThenCallbackRun
        (fun _ : Nat => (.error "boom" : Except String (PState Nat String)))
        0 = .ok (.failed "boom")
    ∧ deferRun (fun _ => (.error "boom" : Except String Nat))
        = .ok (.failed "boom")
    ∧ deferLazyRun
        (fun _ => (.error "boom" : Except String (PState Nat String)))
        = .ok (.failed "boom") :=
  c7_thrown_errors_become_failures Nat Nat String _ _ _ _ _ 0 "boom"
    rfl rfl rfl rfl rfl

/-- Modelled from the spec: a promise together with the failure
forwarding registrations made on it through forwardFailureTo (spec
section 4.1); targets are identified by number and kept in registration
order, the FIFO drain order of section 3. -/
structure FwdPromise (V E : Type) where
  state : PState V E
  failForwards : List Nat

/-- Modelled from the spec: forwardFailureTo of section 4.1 registers an
implicit failure callback that invokes fail on the target with the
observed error; registration on an already-Failed promise invokes the
callback immediately. Returns the updated promise together with the
fail invocations (target, error) performed right away. -/
def forwardFailureTo (p : FwdPromise V E) (t : Nat) :
    FwdPromise V E × List (Nat × E) :=
  match p.state with
  | .failed e => (p, [(t, e)])
  | _ => ({ p with failForwards := p.failForwards ++ [t] }, [])

/-- Modelled from the spec: fail of section 4.1 restricted to the
failure-forwarding callbacks: a Pending promise transitions to Failed
and its registered forwards are drained in registration order, each
invoking fail on its target with the error, the queue being released
after the drain. -/
def failDrain (p : FwdPromise V E) (e : E) :
    FwdPromise V E × List (Nat × E) :=
  match p.state with
  | .pending =>
    ({ state := .failed e, failForwards := [] },
     p.failForwards.map fun t => (t, e))
  | _ => (p, [])

/-- Modelled from the spec: fulfill of section 4.1 restricted to the
failure-forwarding callbacks: value fulfilment ignores them, so no fail
invocation is performed on any target. -/
def fulfillDrain (p : FwdPromise V E) (v : V) :
    FwdPromise V E × List (Nat × E) :=
  match p.state with
  | .pending => ({ state := .fulfilled v, failForwards := [] }, [])
  | _ => (p, [])

theorem count_pair_map_concat [DecidableEq E] (l : List Nat) (t : Nat)
    (e : E) (h : t ∉ l) :
    ((l ++ [t]).map fun x => ((x, e) : Nat × E)).count (t, e) = 1 := by
  induction l with
  | nil => simp
  | cons a as ih =>
    have ha : ¬ a = t := fun hh => h (hh ▸ List.mem_cons_self a as)
    have has : t ∉ as := fun hh => h (List.mem_cons_of_mem a hh)
    simp only [List.cons_append, List.map_cons, List.count_cons, ih has]
    simp [ha, Prod.ext_iff, fun hh : t = a => ha hh.symm]

/-- C8: on a Pending promise with no prior registration of the target,
forwardFailureTo followed by a failure with error e performs the fail
invocation (t, e) on the target exactly once, every invocation directed
at the target carries exactly that error, and fulfilment with a value
performs no invocation at all. -/
theorem c8_forwardFailureTo (V E : Type) [DecidableEq E]
    (p : FwdPromise V E) (t : Nat) (e : E) (v : V)
    (hpend : p.state = .pending) (hfresh : t ∉ p.failForwards) :
    ((failDrain (forwardFailureTo p t).1 e).2.count (t, e) = 1)
    ∧ (∀ pr ∈ (failDrain (forwardFailureTo p t).1 e).2,
        pr.1 = t → pr = (t, e))
    ∧ (fulfillDrain (forwardFailureTo p t).1 v).2 = [] := by
  obtain ⟨st, ffs⟩ := p
  simp only at hpend hfresh
  subst hpend
  refine ⟨?_, ?_, ?_⟩
  · show ((ffs ++ [t]).map fun x => ((x, e) : Nat × E)).count (t, e) = 1
    exact count_pair_map_concat ffs t e hfresh
  · intro pr hpr hfst
    have : pr ∈ (ffs ++ [t]).map fun x => ((x, e) : Nat × E) := hpr
    obtain ⟨x, _, hx⟩ := List.mem_map.mp this
    rw [← hx] at hfst ⊢
    simp only at hfst
    rw [hfst]
  · rfl

/-- Witness for C8 on a fresh pending promise. -/
theorem c8_forwardFailureTo_witness :
    ((failDrain
        (forwardFailureTo (⟨.pending, []⟩ : FwdPromise Nat String) 7).1
        "err").2.count (7, "err") = 1)
    ∧ (∀ pr ∈ (failDrain
          (forwardFailureTo (⟨.pending, []⟩ : FwdPromise Nat String) 7).1
          "err").2, pr.1 = 7 → pr = (7, "err"))
    ∧ (fulfillDrain
        (forwardFailureTo (⟨.pending, []⟩ : FwdPromise Nat String) 7).1
        3).2 = [] :=
  c8_forwardFailureTo Nat String ⟨.pending, []⟩ 7 "err" 3 rfl
    (by decide)

/-- Modelled from the spec: the values a join result fulfills with,
read off the per-input slots in input declaration order (spec section
4.2, join). -/
def joinValues {n : Nat} {V : Type} (slots : Fin n → Option V) : List V :=
  (List.finRange n).filterMap slots

/-- Modelled from the spec: initial state of the join combinator over n
input promises: no input value observed yet and a Pending result
promise. -/
def joinInit (n : Nat) (V E : Type) :
    (Fin n → Option V) × PState (List V) E :=
  (fun _ => none, .pending)

/-- Modelled from the spec: reaction of the join combinator to one
settlement callback delivery from input i (spec section 4.2): while the
result promise is Pending, a fulfilment stores the value in slot i and
fulfils the result with the tuple of values in input order once every
slot is filled, and a failure fails the result with that error at once;
after the result has settled, every later delivery is ignored (the
failure latch of section 5). -/
def joinStep {n : Nat} {V E : Type}
    (st : (Fin n → Option V) × PState (List V) E)
    (ev : Fin n × (V ⊕ E)) : (Fin n → Option V) × PState (List V) E :=
  match st.2 with
  | .pending =>
    match ev.2 with
    | Sum.inl value =>
      let slots := Function.update st.1 ev.1 (some value)
      if ∀ i, (slots i).isSome then (slots, .fulfilled (joinValues slots))
      else (slots, .pending)
    | Sum.inr err => (st.1, .failed err)
  | _ => st

/-- Modelled from the spec: the join combinator state after a sequence
of settlement deliveries, processed in callback-delivery order. -/
def joinRun {n : Nat} {V E : Type}
    (events : List (Fin n × (V ⊕ E))) :
    (Fin n → Option V) × PState (List V) E :=
  events.foldl joinStep (joinInit n V E)

/-- Slot assignment holding the value of every input in the set S and
nothing elsewhere; proof device for the join theorems. -/
def slotsOf {n : Nat} {V : Type} (v : Fin n → V) (S : Finset (Fin n)) :
    Fin n → Option V :=
  fun i => if i ∈ S then some (v i) else none

/-- Join state reached after exactly the inputs in S have delivered
their fulfilments; proof device for the join theorems. -/
def joinStateOf {n : Nat} {V : Type} (v : Fin n → V) (E : Type)
    (S : Finset (Fin n)) : (Fin n → Option V) × PState (List V) E :=
  (slotsOf v S, if ∀ i, i ∈ S then .fulfilled (List.ofFn v) else .pending)

theorem filterMap_eq_map_of_forall (f : α → Option β) (g : α → β) :
    ∀ l : List α, (∀ x ∈ l, f x = some (g x)) → l.filterMap f = l.map g := by
  intro l
  induction l with
  | nil => intro _; rfl
  | cons a as ih =>
    intro h
    have ha := h a (List.mem_cons_self a as)
    simp [List.filterMap_cons, ha,
      ih fun x hx => h x (List.mem_cons_of_mem a hx)]

theorem joinValues_slotsOf {n : Nat} {V : Type} (v : Fin n → V)
    (S : Finset (Fin n)) (hS : ∀ i, i ∈ S) :
    joinValues (slotsOf v S) = List.ofFn v := by
  unfold joinValues
  rw [List.ofFn_eq_map]
  exact filterMap_eq_map_of_forall (slotsOf v S) v (List.finRange n)
    fun i _ => by simp [slotsOf, hS i]

theorem update_slotsOf {n : Nat} {V : Type} (v : Fin n → V)
    (S : Finset (Fin n)) (i : Fin n) :
    Function.update (slotsOf v S) i (some (v i)) = slotsOf v (insert i S) := by
  funext j
  by_cases hji : j = i
  · subst hji
    simp [Function.update_same, slotsOf]
  · simp [Function.update_noteq hji, slotsOf, Finset.mem_insert, hji]

theorem slotsOf_allSome_iff {n : Nat} {V : Type} (v : Fin n → V)
    (S : Finset (Fin n)) :
    (∀ j, (slotsOf v S j).isSome) ↔ ∀ j, j ∈ S := by
  unfold slotsOf
  constructor
  · intro h j
    have hj := h j
    by_cases hmem : j ∈ S
    · exact hmem
    · rw [if_neg hmem] at hj
      simp at hj
  · intro h j
    rw [if_pos (h j)]
    rfl

theorem joinStep_stateOf_inl {n : Nat} {V : Type} (E : Type)
    (v : Fin n → V) (S : Finset (Fin n)) (i : Fin n) (hiS : i ∉ S) :
    joinStep (joinStateOf v E S) (i, Sum.inl (v i))
      = joinStateOf v E (insert i S) := by
  have hSne : ¬ ∀ j, j ∈ S := fun h => hiS (h i)
  unfold joinStateOf
  rw [if_neg hSne]
  simp only [joinStep]
  rw [update_slotsOf v S i]
  by_cases hall : ∀ j, j ∈ insert i S
  · rw [if_pos ((slotsOf_allSome_iff v (insert i S)).mpr hall)]
    rw [if_pos hall]
    rw [joinValues_slotsOf v (insert i S) hall]
  · rw [if_neg (fun hc => hall ((slotsOf_allSome_iff v (insert i S)).mp hc))]
    rw [if_neg hall]

theorem joinFoldl_stateOf {n : Nat} {V : Type} (E : Type) (v : Fin n → V) :
    ∀ (evs : List (Fin n × (V ⊕ E))) (S : Finset (Fin n)),
      (∀ ev ∈ evs, ev.2 = Sum.inl (v ev.1)) →
      (evs.map Prod.fst).Nodup →
      (∀ ev ∈ evs, ev.1 ∉ S) →
      List.foldl joinStep (joinStateOf v E S) evs
        = joinStateOf v E (S ∪ (evs.map Prod.fst).toFinset) := by
  intro evs
  induction evs with
  | nil =>
    intro S _ _ _
    simp
  | cons ev rest ih =>
    intro S hall hnd hdisj
    obtain ⟨i, x⟩ := ev
    have hx : x = Sum.inl (v i) := hall (i, x) (List.mem_cons_self _ _)
    subst hx
    rw [List.foldl_cons,
      joinStep_stateOf_inl E v S i
        (hdisj (i, Sum.inl (v i)) (List.mem_cons_self _ _))]
    have h1 : ∀ e2 ∈ rest, e2.2 = Sum.inl (v e2.1) :=
      fun e2 he2 => hall e2 (List.mem_cons_of_mem _ he2)
    have hndtail := hnd
    simp only [List.map_cons, List.nodup_cons] at hndtail
    have h3 : ∀ e2 ∈ rest, e2.1 ∉ insert i S := by
      intro e2 he2
      simp only [Finset.mem_insert]
      rintro (heq | hmem)
      · exact hndtail.1 (heq ▸ List.mem_map_of_mem Prod.fst he2)
      · exact hdisj e2 (List.mem_cons_of_mem _ he2) hmem
    rw [ih (insert i S) h1 hndtail.2 h3]
    congr 1
    ext j
    simp only [Finset.mem_union, Finset.mem_insert, List.mem_toFinset,
      List.map_cons, List.mem_cons]
    tauto

theorem joinFoldl_failed {n : Nat} {V : Type} (E : Type) :
    ∀ (evs : List (Fin n × (V ⊕ E))) (slots : Fin n → Option V) (e : E),
      List.foldl joinStep
          ((slots, .failed e) : (Fin n → Option V) × PState (List V) E) evs
        = (slots, .failed e) := by
  intro evs
  induction evs with
  | nil => intro slots e; rfl
  | cons ev rest ih =>
    intro slots e
    rw [List.foldl_cons]
    have hstep : joinStep
        ((slots, .failed e) : (Fin n → Option V) × PState (List V) E) ev
        = (slots, .failed e) := rfl
    rw [hstep, ih]

theorem joinInit_eq_stateOf {n : Nat} {V : Type} (E : Type)
    (v : Fin n → V) (hn : 0 < n) :
    joinInit n V E = joinStateOf v E ∅ := by
  unfold joinInit joinStateOf
  have hne : ¬ ∀ j : Fin n, j ∈ (∅ : Finset (Fin n)) := by
    intro h
    exact absurd (h ⟨0, hn⟩) (Finset.not_mem_empty _)
  rw [if_neg hne]
  refine congrArg (fun s => (s, PState.pending)) ?_
  funext j
  simp [slotsOf]

/-- C3: for positive n, when every input delivers a fulfilment exactly
once, in whatever delivery order, the join result fulfills with the
tuple of all input values in input declaration order; and whenever the
delivery sequence consists of distinct-input fulfilments followed by a
first failure, the result fails with exactly that error and every later
delivery, of either kind, leaves the result unchanged. -/
theorem c3_join (V E : Type) (n : Nat) (v : Fin n → V)
    (events : List (Fin n × (V ⊕ E))) :
    (0 < n → (∀ ev ∈ events, ev.2 = Sum.inl (v ev.1)) →
      (events.map Prod.fst).Nodup →
      (∀ i : Fin n, i ∈ events.map Prod.fst) →
      (joinRun events).2 = PState.fulfilled (List.ofFn v))
    ∧ (∀ (pre post : List (Fin n × (V ⊕ E))) (i : Fin n) (e : E),
        events = pre ++ (i, Sum.inr e) :: post →
        (∀ ev ∈ pre, ev.2 = Sum.inl (v ev.1)) →
        (pre.map Prod.fst).Nodup →
        i ∉ pre.map Prod.fst →
        (joinRun events).2 = PState.failed e) := by
  constructor
  · intro hn hall hnd hcover
    unfold joinRun
    rw [joinInit_eq_stateOf E v hn,
      joinFoldl_stateOf E v events ∅ hall hnd
        (fun ev _ => Finset.not_mem_empty _)]
    have hcond : ∀ j : Fin n,
        j ∈ (∅ ∪ (events.map Prod.fst).toFinset : Finset (Fin n)) := by
      intro j
      simp only [Finset.empty_union, List.mem_toFinset]
      exact hcover j
    show (if ∀ j : Fin n,
        j ∈ (∅ ∪ (events.map Prod.fst).toFinset : Finset (Fin n)) then
        PState.fulfilled (List.ofFn v) else PState.pending)
      = PState.fulfilled (List.ofFn v)
    rw [if_pos hcond]
  · intro pre post i e hev hall hnd hni
    have hn : 0 < n := i.pos
    unfold joinRun
    rw [hev, List.foldl_append, joinInit_eq_stateOf E v hn,
      joinFoldl_stateOf E v pre ∅ hall hnd
        (fun ev _ => Finset.not_mem_empty _)]
    have hpend : ¬ ∀ j : Fin n,
        j ∈ (∅ ∪ (pre.map Prod.fst).toFinset : Finset (Fin n)) := by
      intro h
      have hi := h i
      simp only [Finset.empty_union, List.mem_toFinset] at hi
      exact hni hi
    unfold joinStateOf
    rw [if_neg hpend, List.foldl_cons]
    have hstep : joinStep
        ((slotsOf v (∅ ∪ (pre.map Prod.fst).toFinset), PState.pending) :
          (Fin n → Option V) × PState (List V) E)
        (i, Sum.inr e)
        = (slotsOf v (∅ ∪ (pre.map Prod.fst).toFinset), PState.failed e) :=
      rfl
    rw [hstep, joinFoldl_failed E post _ e]

/-- Witness for C3: two inputs delivering out of declaration order
fulfil with the values in declaration order, and a failure after one
fulfilment latches through a later delivery. -/
theorem c3_join_witness :
    (joinRun (n := 2) (V := Nat) (E := String)
        [(1, Sum.inl 20), (0, Sum.inl 10)]).2
      = PState.fulfilled (List.ofFn (fun i : Fin 2 => if i = 0 then 10 else 20))
    ∧ (joinRun (n := 2) (V := Nat) (E := String)
        [(0, Sum.inl 10), (1, Sum.inr "boom"), (0, Sum.inl 99)]).2
      = PState.failed "boom" :=
  ⟨(c3_join Nat String 2 (fun i : Fin 2 => if i = 0 then 10 else 20)
      [(1, Sum.inl 20), (0, Sum.inl 10)]).1
      (by decide) (by intro ev hev; fin_cases hev <;> rfl)
      (by decide) (by decide),
   (c3_join Nat String 2 (fun i : Fin 2 => if i = 0 then 10 else 20)
      [(0, Sum.inl 10), (1, Sum.inr "boom"), (0, Sum.inl 99)]).2
      [(0, Sum.inl 10)] [(0, Sum.inl 99)] 1 "boom"
      rfl (by intro ev hev; fin_cases hev; rfl)
      (by decide) (by decide)⟩

/-- Modelled from the spec: of (spec section 4.2) in the eventual-state
reading of promises used for lazyFib: an already-Fulfilled promise
holding the value. -/
def pOf (v : V) : PState V E :=
  .fulfilled v

/-- Modelled from the spec: the eventual state of join over two inputs
(spec section 4.2): fulfilled with the pair once both inputs fulfil, in
input declaration order, failed as soon as an input fails (delivery
order is immaterial for the lazyFib development, whose inputs never
fail). -/
def pJoin2 (a : PState A E) (b : PState B E) : PState (A × B) E :=
  match a, b with
  | .failed e, _ => .failed e
  | _, .failed e => .failed e
  | .fulfilled x, .fulfilled y => .fulfilled (x, y)
  | _, _ => .pending

/-- Modelled from the spec: the eventual state of thenApply on a
pair-fulfilling promise (spec section 4.2): the function receives the
tuple spread across its two parameters and its result fulfils the
produced promise; failure passes through. -/
def pThenApply (p : PState (A × B) E) (f : A → B → C) : PState C E :=
  match p with
  | .fulfilled ab => .fulfilled (f ab.1 ab.2)
  | .failed e => .failed e
  | .pending => .pending

/-- Modelled from the spec: the eventual state of deferLazy (spec
section 4.2): the outer promise settles exactly as the promise the
thunk returns. -/
def pDeferLazy (thunk : Unit → PState V E) : PState V E :=
  thunk ()

/-- Translated from src/demo.js lines 201-211: lazyFib returns an
already-fulfilled promise of 1 for inputs 0 and 1, and otherwise defers
joining the two recursive calls and adding their values. -/
def lazyFib (E : Type) : Nat → PState Nat E
  | 0 => pOf 1
  | 1 => pOf 1
  | n + 2 => pDeferLazy fun _ =>
      pThenApply (pJoin2 (lazyFib E n) (lazyFib E (n + 1)))
        fun a b => a + b

/-- Fibonacci under the convention the claim states: the values at 0
and 1 are 1 and each later value is the sum of the two before it. -/
def specFib : Nat → Nat
  | 0 => 1
  | 1 => 1
  | n + 2 => specFib n + specFib (n + 1)

theorem lazyFib_eq (E : Type) :
    ∀ n, lazyFib E n = PState.fulfilled (specFib n)
  | 0 => rfl
  | 1 => rfl
  | n + 2 => by
    have h1 := lazyFib_eq E n
    have h2 := lazyFib_eq E (n + 1)
    simp only [lazyFib, specFib, pDeferLazy]
    rw [h1, h2]
    rfl

/-- C9: lazyFib eventually fulfills with the Fibonacci number of its
argument under the convention that the values at 0 and 1 are 1, the
base cases being the already-fulfilled promise of 1, and it never
fails. -/
theorem c9_lazyFib (E : Type) (n : Nat) :
    lazyFib E n = PState.fulfilled (specFib n)
    ∧ lazyFib E 0 = pOf 1
    ∧ lazyFib E 1 = pOf 1
    ∧ (∀ e : E, lazyFib E n ≠ PState.failed e) := by
  refine ⟨lazyFib_eq E n, rfl, rfl, ?_⟩
  intro e hcontra
  rw [lazyFib_eq E n] at hcontra
  exact PState.noConfusion hcontra

/-- Error raised by the assertion helper of src/demo.js lines 5-8, one
constructor per assert call site inside StringRepositoryService get
(src/demo.js lines 59-67), abstracting the four message strings. -/
inductive SrsAssertError where
  | fromOutOfBounds : SrsAssertError
  | toOutOfBounds : SrsAssertError
  | outOfOrder : SrsAssertError
  | tooManyStrings : SrsAssertError
deriving DecidableEq

/-- Translated from src/demo.js lines 5-8: assert throws an Error when
the condition fails; the throw is the error branch of Except here. -/
def assertE (cond : Prop) [Decidable cond] (err : SrsAssertError) :
    Except SrsAssertError Unit :=
  if cond then .ok () else .error err

/-- Translated from src/demo.js line 64: the slice of the strings array
from one index to another, for the in-bounds arguments the surrounding
asserts have validated, where JavaScript slice semantics coincide with
drop followed by take. -/
def jsSlice (l : List String) (a b : Int) : List String :=
  (l.drop a.toNat).take (b - a).toNat

/-- Translated from src/demo.js lines 59-67: the thunk of
StringRepositoryService get, running its four asserts in source order
and returning the slice when all pass; the first failing assert throws
and the rest of the body does not run. -/
def srsGetThunk (strings : List String) (blockSize a b : Int) :
    Except SrsAssertError (List String) :=
  match assertE (0 ≤ a) .fromOutOfBounds with
  | .error e => .error e
  | .ok _ =>
    match assertE (b ≤ (strings.length : Int)) .toOutOfBounds with
    | .error e => .error e
    | .ok _ =>
      match assertE (a ≤ b) .outOfOrder with
      | .error e => .error e
      | .ok _ =>
        match assertE (b - a ≤ blockSize) .tooManyStrings with
        | .error e => .error e
        | .ok _ => .ok (jsSlice strings a b)

/-- Translated from src/demo.js lines 59-67 composed with withDelay of
lines 22-41 under disabled failure injection (FAILURE_PROBABILITY is
0.00 at line 3, so shouldFail is always false): the thunk runs inside a
try block after a delay; a throw fails the result promise and a normal
return fulfils it, so no exception escapes synchronously to the caller
of get, which only receives the promise. -/
def srsGet (strings : List String) (blockSize a b : Int) :
    PState (List String) SrsAssertError :=
  match srsGetThunk strings blockSize a b with
  | .ok v => .fulfilled v
  | .error e => .failed e

/-- C10: with failure injection disabled, get fulfills with the slice
exactly when all four argument bounds hold; each violated bound, taken
in source assertion order, fails the promise with the error of the
corresponding assert; and under any violation the promise never
fulfills. -/
theorem c10_srsGet (strings : List String) (blockSize a b : Int) :
    (srsGet strings blockSize a b = PState.fulfilled (jsSlice strings a b)
      ↔ (0 ≤ a ∧ b ≤ (strings.length : Int) ∧ a ≤ b ∧ b - a ≤ blockSize))
    ∧ (¬ 0 ≤ a →
        srsGet strings blockSize a b = PState.failed .fromOutOfBounds)
    ∧ (0 ≤ a → ¬ b ≤ (strings.length : Int) →
        srsGet strings blockSize a b = PState.failed .toOutOfBounds)
    ∧ (0 ≤ a → b ≤ (strings.length : Int) → ¬ a ≤ b →
        srsGet strings blockSize a b = PState.failed .outOfOrder)
    ∧ (0 ≤ a → b ≤ (strings.length : Int) → a ≤ b → ¬ b - a ≤ blockSize →
        srsGet strings blockSize a b = PState.failed .tooManyStrings)
    ∧ (¬ (0 ≤ a ∧ b ≤ (strings.length : Int) ∧ a ≤ b ∧ b - a ≤ blockSize) →
        ∀ v, srsGet strings blockSize a b ≠ PState.fulfilled v) := by
  have hchar : srsGet strings blockSize a b
      = if 0 ≤ a then
          (if b ≤ (strings.length : Int) then
            (if a ≤ b then
              (if b - a ≤ blockSize
                then PState.fulfilled (jsSlice strings a b)
                else PState.failed .tooManyStrings)
              else PState.failed .outOfOrder)
            else PState.failed .toOutOfBounds)
        else PState.failed .fromOutOfBounds := by
    by_cases h1 : 0 ≤ a <;> by_cases h2 : b ≤ (strings.length : Int) <;>
      by_cases h3 : a ≤ b <;> by_cases h4 : b - a ≤ blockSize <;>
      simp [srsGet, srsGetThunk, assertE, h1, h2, h3, h4]
  rw [hchar]
  by_cases h1 : 0 ≤ a <;> by_cases h2 : b ≤ (strings.length : Int) <;>
    by_cases h3 : a ≤ b <;> by_cases h4 : b - a ≤ blockSize <;>
    simp [h1, h2, h3, h4]

/-- Witness for C10: an in-bounds fetch fulfils with the slice and an
out-of-bounds upper index fails with the matching assertion error. -/
theorem c10_srsGet_witness :
    srsGet ["a", "b", "c"] 2 0 2
      = PState.fulfilled (jsSlice ["a", "b", "c"] 0 2)
    ∧ srsGet ["a", "b", "c"] 2 0 5 = PState.failed .toOutOfBounds :=
  ⟨(c10_srsGet ["a", "b", "c"] 2 0 2).1.mpr (by decide),
   (c10_srsGet ["a", "b", "c"] 2 0 5).2.2.1 (by decide) (by decide)⟩

/-- Witness for C2 at concrete value and error types. -/
theorem c2_exactly_once_resolution_witness :
    tryFulfill (tryFulfill (.pending : PState Nat String) 1).1 2
      = ((tryFulfill (.pending : PState Nat String) 1).1,
          some .alreadyResolved)
    ∧ tryFail (tryFail (.pending : PState Nat String) "a").1 "b"
      = ((tryFail (.pending : PState Nat String) "a").1,
          some .alreadyResolved) :=
  ⟨(c2_exactly_once_resolution Nat String 1 2 "a" "b").1,
   (c2_exactly_once_resolution Nat String 1 2 "a" "b").2.2.2.1⟩

/-- Witness for C4 at a concrete padded sequence. -/
theorem c4_stripEmptyLines_witness :
    (stripEmptyLines ["", "x", ""]).head? ≠ some ""
    ∧ stripEmptyLines ["", "x", "", "y", ""] = ["x", "", "y"] :=
  ⟨(c4_stripEmptyLines ["", "x", ""]).2.1,
   (c4_stripEmptyLines ["", "x", "", "y", ""]).2.2.2⟩

/-- Witness for C9 at a concrete input. -/
theorem c9_lazyFib_witness :
    lazyFib String 5 = PState.fulfilled (specFib 5) :=
  (c9_lazyFib String 5).1
